import Mathlib

/-!
Verification of the social-graph-analysis pipeline: a shallow embedding of the
notebook's own code (Markov-clustering parameter search, spectral clustering and
its parameter search, community filtering, centrality ranking), with the external
library calls (markov_clustering, numpy/sklearn eigen+kmeans/kmedoids, networkx
eigenvector_centrality) abstracted as explicit function parameters, and proofs of
the specified properties.

Number representation: Python floats are modelled as rationals (`ℚ`); the code
only adds, multiplies, divides and compares scores, so the order-theoretic
statements proved here are exact statements about the code's control flow.
-/

/-- Undirected (multi)graph as networkx stores it: the node list in insertion
order plus the edge list.  Node identifiers are integers, not necessarily
contiguous and not necessarily starting at any particular value. -/
structure Graph where
  nodes : List Nat
  edges : List (Nat × Nat)
deriving DecidableEq

/-- networkx `G.subgraph(i)` (induced-subgraph view): keeps the nodes of `G`
that occur in `i`, in `G`'s own iteration order, and the edges both of whose
endpoints are kept. -/
def Graph.subgraph (G : Graph) (i : List Nat) : Graph :=
  ⟨G.nodes.filter (fun v => v ∈ i),
   G.edges.filter (fun e =>
     e.1 ∈ G.nodes.filter (fun v => v ∈ i) ∧ e.2 ∈ G.nodes.filter (fun v => v ∈ i))⟩

/-- Source `separate_communities(Dgraph, communities)`: skip every cluster `i`
with `len(i) <= 4`, otherwise append the induced subgraph `Dgraph.subgraph(i)`. -/
def separate_communities (Dgraph : Graph) (communities : List (List Nat)) : List Graph :=
  communities.foldl
    (fun comm i => if i.length ≤ 4 then comm else comm ++ [Dgraph.subgraph i]) []

/-- Python's `sorted(scores.items(), key = lambda c: c[1])`: a stable ascending
sort by the score component (`List.insertionSort` with this relation is exactly
such a stable sort). -/
def sorted_by_val (l : List (Nat × ℚ)) : List (Nat × ℚ) :=
  List.insertionSort (fun a b => a.2 ≤ b.2) l

/-- Shared ranking step of `close_centrality`, `eigencentrality` and
`degree_centrality` in the source: sort the score items ascending by value,
reverse, and take the key of entry `[0]`.  `none` models the IndexError the
source raises on an empty score mapping. -/
def centrality_select (scores : List (Nat × ℚ)) : Option Nat :=
  ((sorted_by_val scores).reverse.head?).map Prod.fst

/-- networkx degree of a node: the number of incident edge endpoints
(a self-loop counts twice). -/
def Graph.degree (G : Graph) (v : Nat) : Nat :=
  (G.edges.filter (fun e => e.1 = v)).length + (G.edges.filter (fun e => e.2 = v)).length

/-- networkx `degree_centrality(G)`: `{n : 1 for n in G}` when `len(G) <= 1`,
otherwise each degree times `1 / (len(G) - 1)`, keyed in `G`'s node order. -/
def degree_scores (G : Graph) : List (Nat × ℚ) :=
  if G.nodes.length ≤ 1 then G.nodes.map (fun v => (v, 1))
  else G.nodes.map (fun v => (v, (G.degree v : ℚ) * (1 / ((G.nodes.length : ℚ) - 1))))

/-- Source `degree_centrality(G, lst)`: the node it appends to `lst`
(the top entry of the reversed sorted score list). -/
def degree_centrality (G : Graph) : Option Nat :=
  centrality_select (degree_scores G)

/-- Undirected neighbor multiset of `v`: opposite endpoints of incident edges. -/
def Graph.nbrs (G : Graph) (v : Nat) : List Nat :=
  (G.edges.filter (fun e => e.1 = v)).map Prod.snd ++
    (G.edges.filter (fun e => e.2 = v)).map Prod.fst

/-- Breadth-first level expansion computing shortest-path lengths, with fuel
(`G.nodes.length` suffices, every round discovers at least one new node).
State: discovered (node, distance) pairs, current frontier, current distance. -/
def bfsGo (G : Graph) : Nat → List (Nat × Nat) → List Nat → Nat → List (Nat × Nat)
  | 0, visited, _, _ => visited
  | fuel + 1, visited, frontier, d =>
    let next := ((frontier.map G.nbrs).flatten.filter (fun v => v ∉ visited.map Prod.fst)).dedup
    if next = [] then visited
    else bfsGo G fuel (visited ++ next.map (fun v => (v, d + 1))) next (d + 1)

/-- Shortest-path length mapping from `src` (networkx `shortest_path_length`),
restricted to the reachable nodes, source at distance 0. -/
def spLengths (G : Graph) (src : Nat) : List (Nat × Nat) :=
  bfsGo G G.nodes.length [(src, 0)] [src] 0

/-- networkx `closeness_centrality(G)` with the default wf_improved scaling:
`(len(sp)-1)/totsp * (len(sp)-1)/(len(G)-1)` when `totsp > 0` and `len(G) > 1`,
else `0.0`, where `sp` is the shortest-path-length mapping from the node. -/
def closeness_scores (G : Graph) : List (Nat × ℚ) :=
  G.nodes.map (fun u =>
    if 0 < ((spLengths G u).map Prod.snd).sum ∧ 1 < G.nodes.length then
      (u, ((((spLengths G u).length : ℚ) - 1) / ((((spLengths G u).map Prod.snd).sum : ℚ))) *
            ((((spLengths G u).length : ℚ) - 1) / ((G.nodes.length : ℚ) - 1)))
    else (u, 0))

/-- Source `close_centrality(G, lst)`: the node it appends to `lst`. -/
def close_centrality (G : Graph) : Option Nat :=
  centrality_select (closeness_scores G)

/-- Source `eigencentrality(G, lst)`: `nx.eigenvector_centrality(nx.DiGraph(G))`
is an external networkx computation, abstracted as the score-mapping parameter
`eigc` (keyed by `G`'s nodes in iteration order); the sort/reverse/select step
is the repository's code. -/
def eigencentrality (eigc : Graph → List (Nat × ℚ)) (G : Graph) : Option Nat :=
  centrality_select (eigc G)

instance : IsTotal (Nat × ℚ) (fun a b => a.2 ≤ b.2) :=
  ⟨fun a b => le_total a.2 b.2⟩

instance : IsTrans (Nat × ℚ) (fun a b => a.2 ≤ b.2) :=
  ⟨fun _ _ _ h1 h2 => le_trans h1 h2⟩

/-- Specification predicate for the rankers' tie-break behaviour: `sel` is the
key of an entry of `scores` that (a) attains the maximum score and (b) is the
last such entry in iteration order (every strictly later entry scores strictly
less). -/
def IsLastMaxSelection (scores : List (Nat × ℚ)) (sel : Option Nat) : Prop :=
  ∃ (idx : Nat) (hidx : idx < scores.length),
    sel = some (scores.get ⟨idx, hidx⟩).1 ∧
    (∀ j (hj : j < scores.length), (scores.get ⟨j, hj⟩).2 ≤ (scores.get ⟨idx, hidx⟩).2) ∧
    (∀ j (hj : j < scores.length), idx < j → (scores.get ⟨j, hj⟩).2 < (scores.get ⟨idx, hidx⟩).2)

/-- Abstract interface to the external markov_clustering library applied to one
fixed input matrix: `modularity e i` is what source `mc_loop(mat, e, i)` returns
(`mc.modularity` of the clusters obtained at expansion `e`, inflation `i`), and
`clusters e i` is what source `mc_loop_final(mat, e, i)` returns.  For a fixed
matrix the library is deterministic, so both are functions of the two
hyperparameters. -/
structure MCModel where
  modularity : Nat → ℚ → ℚ
  clusters : Nat → ℚ → List (List Nat)

/-- The inflation grid `[i / 10 for i in range(start, stop)]`. -/
def inflList (start stop : Nat) : List ℚ :=
  (List.range' start (stop - start)).map (fun i => ((i : Nat) : ℚ) / 10)

/-- Loop body of source `mc_train`: append `Q` to the series and update
`(max_infl, max_mod)` only on a strict improvement `Q > max_mod`. -/
def mcStep (m : MCModel) (expand : Nat) (acc : ℚ × ℚ × List ℚ) (inflation : ℚ) :
    ℚ × ℚ × List ℚ :=
  if acc.2.1 < m.modularity expand inflation then
    (inflation, m.modularity expand inflation, acc.2.2 ++ [m.modularity expand inflation])
  else (acc.1, acc.2.1, acc.2.2 ++ [m.modularity expand inflation])

/-- Source `mc_train(mat, expand, start, end)`: fold the loop body over the
inflation grid with state `(max_infl, max_mod, mod_series)` initialized
`(0, 0, [])`. -/
def mc_train (m : MCModel) (expand start stop : Nat) : ℚ × ℚ × List ℚ :=
  (inflList start stop).foldl (mcStep m expand) (0, 0, [])

/-- Loop body of source `markov_grand_loop`: update
`(max_expand, grand_max_infl, grand_max_modularity)` only on a strict
improvement `grand_max_modularity < curr_max_mod`. -/
def searchStep (m : MCModel) (i0 i1 : Nat) (acc : Nat × ℚ × ℚ) (i : Nat) : Nat × ℚ × ℚ :=
  if acc.2.2 < (mc_train m i i0 i1).2.1 then
    (i, (mc_train m i i0 i1).1, (mc_train m i i0 i1).2.1)
  else acc

/-- Selection state of source `markov_grand_loop`: fold over
`range(expand_start, expand_end + 1)` with state initialized `(0, 0, 0)`. -/
def markov_search (m : MCModel) (es ee i0 i1 : Nat) : Nat × ℚ × ℚ :=
  (List.range' es (ee + 1 - es)).foldl (searchStep m i0 i1) (0, 0, 0)

/-- Source `markov_grand_loop`: after the grid search, re-run the clusterer once
at the winning parameters and return its clusters.  The `mod_ser_by_expansion`
accumulator and the `draw_graph` call feed only the external plotting
collaborator and do not affect the returned value. -/
def markov_grand_loop (m : MCModel) (es ee i0 i1 : Nat) : List (List Nat) :=
  m.clusters (markov_search m es ee i0 i1).1 (markov_search m es ee i0 i1).2.1

/-- Source `spectral(G, n)` (KMeans variant).  The Laplacian eigen-decomposition
and the `KMeans(n).fit` on the embedding are external numpy/sklearn calls,
abstracted as the label-list parameter `km`; the repository code then zips the
positional node numbers `range(1, G.number_of_nodes() + 1)` with those labels
(`dict(zip(node_no, labels))`, represented as the association list in key
insertion order). -/
def spectral (km : Graph → Nat → List Nat) (G : Graph) (n : Nat) : List (Nat × Nat) :=
  List.zip (List.range' 1 G.nodes.length) (km G n)

/-- Source `spectral_2(G, n)` (KMedoids variant): identical construction with the
external `KMedoids(n_clusters = n).fit` labels abstracted as `km2`. -/
def spectral_2 (km2 : Graph → Nat → List Nat) (G : Graph) (n : Nat) : List (Nat × Nat) :=
  List.zip (List.range' 1 G.nodes.length) (km2 G n)

/-- Source `spectral_post_process(n, node_and_labl)`: start from `n` empty
buckets and append each key `j` to bucket `node_and_labl[j]`.  `none` models the
IndexError Python raises when a label is at least `n`. -/
def spectral_post_process (n : Nat) (labl : List (Nat × Nat)) : Option (List (List Nat)) :=
  labl.foldl
    (fun acc p => acc.bind (fun cs =>
      if p.2 < cs.length then some (cs.set p.2 (cs.getD p.2 [] ++ [p.1])) else none))
    (some (List.replicate n []))

/-- Source `balance_score_clusters(clust)`, modelled order-faithfully: the code
returns `statistics.stdev` of the cluster sizes; we return its square (the
sample variance `sum (x - mean)^2 / (n - 1)`, exact in `ℚ`), which is related to
the stdev by the strictly monotone square root, so every comparison and
equality test the code performs on these scores is preserved verbatim as long
as constants are squared too.  `none` models the StatisticsError raised on
fewer than two data points. -/
def balance_score_clusters (clust : List (List Nat)) : Option ℚ :=
  if clust.length < 2 then none
  else some
    (((clust.map (fun a => ((a.length : ℚ) -
          (clust.map (fun b => (b.length : ℚ))).sum / (clust.length : ℚ)) ^ 2)).sum) /
      ((clust.length : ℚ) - 1))

/-- Source `spectral_grand_loop(graph, k_start, k_end)`: fold over
`range(k_start, k_end + 1)` accumulating `(k_m, dev_soc, min_std_dev)` with the
KMedoids trial pipeline, then `best_k = k_m[dev_soc.index(min_std_dev)]` and a
final KMeans re-run `spectral_post_process(best_k, spectral(graph, best_k))`.
The sentinel `99999` appears squared because balance scores are modelled
squared; `none` models the IndexError / StatisticsError / ValueError paths
(out-of-range label, fewer than two clusters, `min_std_dev` not in `dev_soc`).
The plotting block is external and dropped. -/
def spectral_grand_loop (km km2 : Graph → Nat → List Nat) (graph : Graph) (ks ke : Nat) :
    Option (List (List Nat)) :=
  ((List.range' ks (ke + 1 - ks)).foldlM
      (fun st r =>
        (spectral_post_process r (spectral_2 km2 graph r)).bind (fun fin =>
          (balance_score_clusters fin).map (fun dev =>
            (st.1 ++ [r], st.2.1 ++ [dev], if dev < st.2.2 then dev else st.2.2))))
      (([] : List Nat), ([] : List ℚ), ((99999 : ℚ) ^ 2))).bind
    (fun st =>
      (st.2.1.findIdx? (fun d => d = st.2.2)).bind (fun idx =>
        (st.1.get? idx).bind (fun bk =>
          spectral_post_process bk (spectral km graph bk))))

/-- The triangle graph of the specification's centrality test: nodes 1, 2, 3
inserted in that order, all three edges present. -/
def triangle : Graph := ⟨[1, 2, 3], [(1, 2), (1, 3), (2, 3)]⟩

/-- A community with zero nodes. -/
def emptyCommunity : Graph := ⟨[], []⟩

/-- A community with a single node. -/
def singletonCommunity : Graph := ⟨[7], []⟩

/-- A graph whose node identifiers start at 0, as every graph built by the
notebook's dgl loader does. -/
def nodesFromZero : Graph := ⟨[0, 1, 2], [(0, 1), (1, 2), (0, 2)]⟩

/-- A concrete clustering backend: constant label list `[0, 1, 0]`. -/
def kmZero : Graph → Nat → List Nat := fun _ _ => [0, 1, 0]

/-- A concrete clustering backend: constant label list `[1, 0, 0]`. -/
def kmOne : Graph → Nat → List Nat := fun _ _ => [1, 0, 0]

/-- A concrete Markov model whose every trial has negative modularity. -/
def mAllNeg : MCModel := ⟨fun _ _ => -1, fun e _ => [[e]]⟩

/-- A concrete Markov model with a unique strictly positive peak at
expansion 2, inflation 1.2. -/
def mOnePeak : MCModel :=
  ⟨fun e i => if e = 2 ∧ i = 12 / 10 then 5 else 1, fun e _ => [[e]]⟩

/-- A six-node host graph for the community-filter claims. -/
def hostSix : Graph := ⟨[1, 2, 3, 4, 5, 6], [(1, 2)]⟩

/-- Strict-improvement scan: the common shape of the two selection folds
(`mcStep` on the inflation grid, `searchStep` on the expansion range), keeping
payload `g x` and value `f x` of each element that strictly improves on the
running best value.  Introduced to state and prove properties of those folds. -/
def scanBest {α β : Type} (f : α → ℚ) (g : α → β) (l : List α) (acc : β × ℚ) : β × ℚ :=
  l.foldl (fun a x => if a.2 < f x then (g x, f x) else a) acc

lemma separate_communities_foldl (G : Graph) :
    ∀ (cs : List (List Nat)) (acc : List Graph),
      cs.foldl (fun comm i => if i.length ≤ 4 then comm else comm ++ [G.subgraph i]) acc =
        acc ++ (cs.filter (fun c => 4 < c.length)).map G.subgraph
  | [], acc => by simp
  | c :: cs, acc => by
    by_cases h : c.length ≤ 4
    · have h' : ¬ 4 < c.length := by omega
      simp [List.filter_cons, h, h', separate_communities_foldl G cs acc]
    · have h' : 4 < c.length := by omega
      simp [List.filter_cons, h, h', separate_communities_foldl G cs (acc ++ [G.subgraph c])]

lemma separate_communities_eq (G : Graph) (cs : List (List Nat)) :
    separate_communities G cs = (cs.filter (fun c => 4 < c.length)).map G.subgraph := by
  rw [separate_communities, separate_communities_foldl G cs []]
  simp

lemma subgraph_nodes_filter (G : Graph) (c : List Nat) :
    (G.subgraph c).nodes = G.nodes.filter (fun v => v ∈ c) := rfl

lemma subgraph_idem (G : Graph) (c : List Nat) :
    G.subgraph ((G.subgraph c).nodes) = G.subgraph c := by
  have hk : (G.nodes.filter (fun v => v ∈ (G.subgraph c).nodes)) =
      G.nodes.filter (fun v => v ∈ c) := by
    apply List.filter_congr
    intro x hx
    have : (x ∈ (G.subgraph c).nodes) ↔ (x ∈ c) := by
      rw [subgraph_nodes_filter]
      simp [List.mem_filter, hx]
    simp [this]
  simp only [Graph.subgraph] at hk ⊢
  simp only [hk]

lemma subgraph_nodes_length (G : Graph) (c : List Nat) (hG : G.nodes.Nodup)
    (hc : c.Nodup) (hsub : ∀ x ∈ c, x ∈ G.nodes) :
    (G.subgraph c).nodes.length = c.length := by
  rw [subgraph_nodes_filter]
  apply List.Perm.length_eq
  rw [List.perm_ext_iff_of_nodup (hG.filter _) hc]
  intro a
  simp only [List.mem_filter, decide_eq_true_eq]
  constructor
  · rintro ⟨_, h⟩; exact h
  · intro h; exact ⟨hsub a h, h⟩

/-- C6: for every graph and cluster list with the default threshold,
`separate_communities` returns induced subgraphs exactly for the clusters whose
size exceeds 4 (size at most 4 is skipped), preserving the relative order of
the input cluster list, and each induced subgraph retains only edges of the
host graph whose two endpoints lie in the cluster. -/
theorem separate_communities_filters_by_size (G : Graph) (cs : List (List Nat)) :
    separate_communities G cs = (cs.filter (fun c => 4 < c.length)).map G.subgraph ∧
    ∀ c : List Nat, ∀ e ∈ (G.subgraph c).edges, e ∈ G.edges ∧ e.1 ∈ c ∧ e.2 ∈ c := by
  refine ⟨separate_communities_eq G cs, ?_⟩
  intro c e he
  simp only [Graph.subgraph, List.mem_filter, decide_eq_true_eq] at he
  exact ⟨he.1, he.2.1.2, he.2.2.2⟩

/-- Witness for the C6 theorem at a concrete graph, cluster and edge. -/
theorem separate_communities_filters_by_size_witness :
    (1, 2) ∈ (hostSix.subgraph [1, 2, 3, 4, 5]).edges ∧
      ((1, 2) ∈ hostSix.edges ∧ 1 ∈ [1, 2, 3, 4, 5] ∧ 2 ∈ [1, 2, 3, 4, 5]) :=
  ⟨by decide,
   (separate_communities_filters_by_size hostSix [[1, 2, 3, 4, 5]]).2
     [1, 2, 3, 4, 5] (1, 2) (by decide)⟩

/-- C7 as stated is false: a cluster listing one node five times passes the
size filter (its Python `len` is 5), but the induced community has a single
node, so the second filtering pass drops it. -/
theorem separate_communities_not_idem :
    separate_communities hostSix
        ((separate_communities hostSix [[1, 1, 1, 1, 1]]).map Graph.nodes) ≠
      separate_communities hostSix [[1, 1, 1, 1, 1]] := by decide

/-- C7 amended: `separate_communities` is idempotent on cluster lists whose
clusters are duplicate-free and consist of nodes of the host graph (as the
clusterers produce for graphs whose nodes it labels): re-filtering its output
(communities iterate as their node lists) with the same threshold returns the
same community list. -/
theorem separate_communities_idem (G : Graph) (cs : List (List Nat))
    (hG : G.nodes.Nodup) (hcs : ∀ c ∈ cs, c.Nodup ∧ ∀ x ∈ c, x ∈ G.nodes) :
    separate_communities G ((separate_communities G cs).map Graph.nodes) =
      separate_communities G cs := by
  have hfcs := separate_communities_eq G cs
  rw [separate_communities_eq G, hfcs, List.map_map]
  have hlen : ∀ c ∈ cs.filter (fun c => 4 < c.length),
      4 < ((Graph.nodes ∘ G.subgraph) c).length := by
    intro c hc
    obtain ⟨hcmem, hclen⟩ := List.mem_filter.mp hc
    obtain ⟨hnd, hsub⟩ := hcs c hcmem
    simp only [Function.comp_apply]
    rw [subgraph_nodes_length G c hG hnd hsub]
    exact of_decide_eq_true hclen
  have hself : ((cs.filter (fun c => 4 < c.length)).map
        (Graph.nodes ∘ G.subgraph)).filter (fun c => 4 < c.length) =
      (cs.filter (fun c => 4 < c.length)).map (Graph.nodes ∘ G.subgraph) := by
    rw [List.filter_eq_self]
    intro a ha
    obtain ⟨c, hc, rfl⟩ := List.mem_map.mp ha
    exact decide_eq_true (hlen c hc)
  rw [hself, List.map_map]
  apply List.map_congr_left
  intro c hc
  simpa [Function.comp] using subgraph_idem G c

/-- Witness for the amended C7 theorem at a concrete graph and cluster list. -/
theorem separate_communities_idem_witness :
    separate_communities hostSix
        ((separate_communities hostSix [[1, 2, 3, 4, 5]]).map Graph.nodes) =
      separate_communities hostSix [[1, 2, 3, 4, 5]] :=
  separate_communities_idem hostSix [[1, 2, 3, 4, 5]] (by decide) (by decide)

lemma degree_scores_triangle : degree_scores triangle = [(1, 1), (2, 1), (3, 1)] := by
  simp [degree_scores, triangle, Graph.degree, List.filter]
  norm_num

lemma closeness_scores_triangle : closeness_scores triangle = [(1, 1), (2, 1), (3, 1)] := by
  have hn : triangle.nodes = [1, 2, 3] := rfl
  have h1 : spLengths triangle 1 = [(1, 0), (2, 1), (3, 1)] := by decide
  have h2 : spLengths triangle 2 = [(2, 0), (3, 1), (1, 1)] := by decide
  have h3 : spLengths triangle 3 = [(3, 0), (1, 1), (2, 1)] := by decide
  simp [closeness_scores, hn, h1, h2, h3]
  norm_num

lemma degree_centrality_triangle : degree_centrality triangle = some 3 := by
  rw [degree_centrality, degree_scores_triangle]; decide

lemma close_centrality_triangle : close_centrality triangle = some 3 := by
  rw [close_centrality, closeness_scores_triangle]; decide

/-- C5 as stated is false on the code: on the triangle with nodes 1, 2, 3 and
all three edges, neither the degree-mode nor the closeness-mode ranker selects
the lowest node id 1 (the stable ascending sort followed by reversal puts the
last of the tied nodes first). -/
theorem triangle_rankers_do_not_pick_lowest :
    degree_centrality triangle ≠ some 1 ∧ close_centrality triangle ≠ some 1 := by
  rw [degree_centrality, degree_scores_triangle, close_centrality, closeness_scores_triangle]
  decide

/-- C5 amended: on the triangle, degree centrality and closeness centrality
both assign every node the exact score 1.0, and both the degree-mode and the
closeness-mode ranker select node 3 — the node last in the iteration order of
the score mapping — rather than the lowest node id. -/
theorem triangle_centrality_scores_and_selection :
    degree_scores triangle = [(1, 1), (2, 1), (3, 1)] ∧
    closeness_scores triangle = [(1, 1), (2, 1), (3, 1)] ∧
    degree_centrality triangle = some 3 ∧
    close_centrality triangle = some 3 :=
  ⟨degree_scores_triangle, closeness_scores_triangle,
   degree_centrality_triangle, close_centrality_triangle⟩

/-- C9, evaluated at the failing input: on a community with zero nodes no
centrality mode produces a value (the source raises IndexError at
`sorted_centr[0][0]`, and networkx `eigenvector_centrality` raises on an empty
graph before any score mapping exists), contradicting the required defined
sentinel; on a one-node community the degree and closeness modes do return the
node itself. -/
theorem empty_community_centrality_has_no_value :
    degree_centrality emptyCommunity = none ∧
    close_centrality emptyCommunity = none ∧
    (∀ eigc : Graph → List (Nat × ℚ), eigc emptyCommunity = [] →
      eigencentrality eigc emptyCommunity = none) ∧
    degree_centrality singletonCommunity = some 7 ∧
    close_centrality singletonCommunity = some 7 := by
  refine ⟨by decide, by decide, ?_, by decide, by decide⟩
  intro eigc h
  rw [eigencentrality, h]
  decide

/-- Witness for the C9 theorem: its eigenvector-mode conjunct applied to the
empty score mapping. -/
theorem empty_community_centrality_has_no_value_witness :
    eigencentrality (fun _ => []) emptyCommunity = none :=
  empty_community_centrality_has_no_value.2.2.1 (fun _ => []) rfl

lemma map_getD_range : ∀ cs : List (List Nat),
    (List.range cs.length).map (fun i => cs.getD i []) = cs
  | [] => by simp
  | x :: t => by
    rw [List.length_cons, List.range_succ_eq_map, List.map_cons, List.map_map]
    simp only [Function.comp_def, List.getD_cons_zero, List.getD_cons_succ]
    rw [map_getD_range t]

lemma spectral_post_process_foldl :
    ∀ (labl : List (Nat × Nat)) (cs : List (List Nat)), (∀ p ∈ labl, p.2 < cs.length) →
      labl.foldl
          (fun acc p => acc.bind (fun cur =>
            if p.2 < cur.length then some (cur.set p.2 (cur.getD p.2 [] ++ [p.1]))
            else none))
          (some cs) =
        some ((List.range cs.length).map
          (fun i => cs.getD i [] ++ (labl.filter (fun p => p.2 = i)).map Prod.fst))
  | [], cs, _ => by
    rw [List.foldl_nil]
    congr 1
    conv_lhs => rw [← map_getD_range cs]
    apply List.map_congr_left
    intro i _
    simp
  | p :: rest, cs, h => by
    have hp : p.2 < cs.length := h p (List.mem_cons_self p rest)
    have hlen : (cs.set p.2 (cs.getD p.2 [] ++ [p.1])).length = cs.length :=
      List.length_set cs p.2 _
    have hrest : ∀ q ∈ rest, q.2 < (cs.set p.2 (cs.getD p.2 [] ++ [p.1])).length := by
      intro q hq
      rw [hlen]
      exact h q (List.mem_cons_of_mem p hq)
    rw [List.foldl_cons, Option.some_bind, if_pos hp,
      spectral_post_process_foldl rest _ hrest]
    congr 1
    rw [hlen]
    apply List.map_congr_left
    intro i hi
    have hi' : i < cs.length := List.mem_range.mp hi
    have hset : i < (cs.set p.2 (cs.getD p.2 [] ++ [p.1])).length := by rw [hlen]; exact hi'
    by_cases hpi : p.2 = i
    · subst hpi
      rw [List.getD_eq_getElem _ _ hset, List.getElem_set_self, List.filter_cons]
      simp only [decide_eq_true_eq, if_pos rfl, List.map_cons]
      rw [List.getD_eq_getElem _ _ hp]
      simp [List.append_assoc]
    · rw [List.getD_eq_getElem _ _ hset, List.getElem_set_ne hpi, List.filter_cons]
      have : (decide (p.2 = i)) = false := by simp [hpi]
      rw [this]
      simp only [Bool.false_eq_true, if_false]
      rw [← List.getD_eq_getElem _ _ hi']

lemma spectral_post_process_eq (k : Nat) (labl : List (Nat × Nat))
    (h : ∀ p ∈ labl, p.2 < k) :
    spectral_post_process k labl =
      some ((List.range k).map (fun i => (labl.filter (fun p => p.2 = i)).map Prod.fst)) := by
  have h' : ∀ p ∈ labl, p.2 < (List.replicate k ([] : List Nat)).length := by
    simpa using h
  rw [spectral_post_process, spectral_post_process_foldl labl _ h']
  congr 1
  rw [List.length_replicate]
  apply List.map_congr_left
  intro i hi
  have hik : i < k := List.mem_range.mp hi
  rw [List.getD_eq_getElem _ _ (by simpa using hik), List.getElem_replicate, List.nil_append]

lemma assoc_snd_unique : ∀ {l : List (Nat × Nat)}, (l.map Prod.fst).Nodup →
    ∀ {a b c : Nat}, (a, b) ∈ l → (a, c) ∈ l → b = c := by
  intro l
  induction l with
  | nil =>
    intro _ a b c hb
    simp at hb
  | cons x t ih =>
    intro hnd a b c hb hc
    rw [List.map_cons, List.nodup_cons] at hnd
    rcases List.mem_cons.mp hb with hb1 | hb2 <;> rcases List.mem_cons.mp hc with hc1 | hc2
    · rw [← hb1] at hc1
      exact (Prod.mk.injEq _ _ _ _).mp hc1.symm |>.2
    · exfalso
      apply hnd.1
      rw [← hb1]
      exact List.mem_map.mpr ⟨(a, c), hc2, rfl⟩
    · exfalso
      apply hnd.1
      rw [← hc1]
      exact List.mem_map.mpr ⟨(a, b), hb2, rfl⟩
    · exact ih hnd.2 hb2 hc2

lemma partition_of_zip (n k : Nat) (labels : List Nat)
    (hlen : labels.length = n) (hlt : ∀ lab ∈ labels, lab < k) :
    ∃ cs, spectral_post_process k (List.zip (List.range' 1 n) labels) = some cs ∧
      (∀ i j, i < cs.length → j < cs.length → i ≠ j →
        ∀ x ∈ cs.getD i [], x ∉ cs.getD j []) ∧
      (∀ x, (∃ c ∈ cs, x ∈ c) ↔ x ∈ List.range' 1 n) := by
  have hkeys : (List.zip (List.range' 1 n) labels).map Prod.fst = List.range' 1 n :=
    List.map_fst_zip _ _ (by rw [List.length_range', hlen])
  have hpair : ∀ p ∈ List.zip (List.range' 1 n) labels, p.2 < k := by
    intro p hp
    rcases p with ⟨a, b⟩
    exact hlt b (List.of_mem_zip hp).2
  refine ⟨_, spectral_post_process_eq k _ hpair, ?_, ?_⟩
  · intro i j hi hj hij x hxi hxj
    have hmem : ∀ m, m < ((List.range k).map (fun i =>
          ((List.zip (List.range' 1 n) labels).filter (fun p => p.2 = i)).map Prod.fst)).length →
        ∀ y, y ∈ ((List.range k).map (fun i =>
          ((List.zip (List.range' 1 n) labels).filter (fun p => p.2 = i)).map Prod.fst)).getD m [] →
        (y, m) ∈ List.zip (List.range' 1 n) labels := by
      intro m hm y hy
      have hm' : m < (List.range k).length := by simpa using hm
      rw [List.getD_eq_getElem _ _ hm, List.getElem_map] at hy
      obtain ⟨p, hpmem, hpy⟩ := List.mem_map.mp hy
      have hpf := List.mem_filter.mp hpmem
      have h2 : p.2 = (List.range k).get ⟨m, hm'⟩ := by simpa using hpf.2
      rw [List.get_eq_getElem, List.getElem_range] at h2
      rcases p with ⟨a, b⟩
      cases hpy
      cases h2
      exact hpf.1
    have hnd : ((List.zip (List.range' 1 n) labels).map Prod.fst).Nodup := by
      rw [hkeys]
      exact List.nodup_range' 1 n 1 Nat.one_pos
    have h1 := hmem i hi x hxi
    have h2 := hmem j hj x hxj
    exact hij (assoc_snd_unique hnd h1 h2)
  · intro x
    constructor
    · rintro ⟨c, hc, hx⟩
      obtain ⟨i, _, rfl⟩ := List.mem_map.mp hc
      obtain ⟨p, hpmem, hpy⟩ := List.mem_map.mp hx
      have := (List.mem_filter.mp hpmem).1
      rw [← hkeys]
      exact List.mem_map.mpr ⟨p, this, hpy⟩
    · intro hx
      rw [← hkeys] at hx
      obtain ⟨p, hpmem, hpy⟩ := List.mem_map.mp hx
      refine ⟨((List.zip (List.range' 1 n) labels).filter
          (fun q => q.2 = p.2)).map Prod.fst, ?_, ?_⟩
      · exact List.mem_map.mpr ⟨p.2, List.mem_range.mpr (hpair p hpmem), rfl⟩
      · exact List.mem_map.mpr ⟨p, List.mem_filter.mpr ⟨hpmem, by simp⟩, hpy⟩

/-- C1 as stated is false: on a graph whose nodes are 0, 1, 2 (as for every
graph the notebook builds, whose dgl node ids start at 0), the clusters
produced by `spectral_post_process` of a `spectral` labeling partition the
positional keys 1, 2, 3, so their union does not contain node 0 and is not the
node set. -/
theorem spectral_partition_union_misses_node :
    spectral_post_process 2 (spectral kmZero nodesFromZero 2) = some [[1, 3], [2]] ∧
    0 ∈ nodesFromZero.nodes ∧ ∀ c ∈ [[1, 3], [2]], (0 : Nat) ∉ c := by decide

/-- C1 amended: for every graph `G` and every backend label list of the shape
KMeans/KMedoids produce (one label per node, labels below `k`), the clusters
produced by `spectral_post_process` on a `spectral` or `spectral_2` labeling
are pairwise disjoint and their union is exactly the positional key set
1..number_of_nodes(G) — which coincides with G's node set only when the nodes
are exactly 1..n. -/
theorem spectral_partition (km km2 : Graph → Nat → List Nat) (G : Graph) (k : Nat)
    (h1 : (km G k).length = G.nodes.length) (h2 : ∀ lab ∈ km G k, lab < k)
    (h1' : (km2 G k).length = G.nodes.length) (h2' : ∀ lab ∈ km2 G k, lab < k) :
    (∃ cs, spectral_post_process k (spectral km G k) = some cs ∧
      (∀ i j, i < cs.length → j < cs.length → i ≠ j →
        ∀ x ∈ cs.getD i [], x ∉ cs.getD j []) ∧
      (∀ x, (∃ c ∈ cs, x ∈ c) ↔ x ∈ List.range' 1 G.nodes.length)) ∧
    (∃ cs, spectral_post_process k (spectral_2 km2 G k) = some cs ∧
      (∀ i j, i < cs.length → j < cs.length → i ≠ j →
        ∀ x ∈ cs.getD i [], x ∉ cs.getD j []) ∧
      (∀ x, (∃ c ∈ cs, x ∈ c) ↔ x ∈ List.range' 1 G.nodes.length)) :=
  ⟨partition_of_zip G.nodes.length k (km G k) h1 h2,
   partition_of_zip G.nodes.length k (km2 G k) h1' h2'⟩

/-- Witness for the amended C1 theorem at a concrete graph and backend. -/
theorem spectral_partition_witness :
    (∃ cs, spectral_post_process 2 (spectral kmZero nodesFromZero 2) = some cs ∧
      (∀ i j, i < cs.length → j < cs.length → i ≠ j →
        ∀ x ∈ cs.getD i [], x ∉ cs.getD j []) ∧
      (∀ x, (∃ c ∈ cs, x ∈ c) ↔ x ∈ List.range' 1 nodesFromZero.nodes.length)) ∧
    (∃ cs, spectral_post_process 2 (spectral_2 kmZero nodesFromZero 2) = some cs ∧
      (∀ i j, i < cs.length → j < cs.length → i ≠ j →
        ∀ x ∈ cs.getD i [], x ∉ cs.getD j []) ∧
      (∀ x, (∃ c ∈ cs, x ∈ c) ↔ x ∈ List.range' 1 nodesFromZero.nodes.length)) :=
  spectral_partition kmZero kmZero nodesFromZero 2 (by decide) (by decide)
    (by decide) (by decide)

/-- C4 as stated is false: the labeling returned by `spectral` is keyed by the
positional numbers 1..number_of_nodes, so on a graph with nodes 0, 1, 2 the
key set is {1, 2, 3}, which is not the node set (node 0 is missing). -/
theorem spectral_keys_are_not_node_ids :
    (spectral kmZero nodesFromZero 2).map Prod.fst = [1, 2, 3] ∧
    0 ∈ nodesFromZero.nodes ∧ (0 : Nat) ∉ [1, 2, 3] := by decide

/-- C4 amended: for every graph `G`, every `k`, and backend label lists of the
shape KMeans/KMedoids produce, the mappings returned by `spectral` and
`spectral_2` have as keys exactly the positional numbers 1..number_of_nodes(G)
in order, each mapped to a cluster index below `k`; the keys coincide with G's
node identifiers only when the nodes are exactly 1..n. -/
theorem spectral_keys_positional (km km2 : Graph → Nat → List Nat) (G : Graph) (k : Nat)
    (h1 : (km G k).length = G.nodes.length) (h2 : ∀ lab ∈ km G k, lab < k)
    (h1' : (km2 G k).length = G.nodes.length) (h2' : ∀ lab ∈ km2 G k, lab < k) :
    (spectral km G k).map Prod.fst = List.range' 1 G.nodes.length ∧
    (spectral_2 km2 G k).map Prod.fst = List.range' 1 G.nodes.length ∧
    (∀ p ∈ spectral km G k, p.2 < k) ∧ (∀ p ∈ spectral_2 km2 G k, p.2 < k) := by
  refine ⟨List.map_fst_zip _ _ (by rw [List.length_range', h1]),
    List.map_fst_zip _ _ (by rw [List.length_range', h1']), ?_, ?_⟩
  · intro p hp
    rcases p with ⟨a, b⟩
    exact h2 b (List.of_mem_zip hp).2
  · intro p hp
    rcases p with ⟨a, b⟩
    exact h2' b (List.of_mem_zip hp).2

/-- C3: over a single-element k range, the spectral parameter search returns
exactly what the spectral clusterer pipeline run once at that k returns: the
one trial's balance score is necessarily the minimum, so `best_k = k`, and the
final re-run is `spectral_post_process k (spectral graph k)`.  The hypotheses
say the single trial completes: its post-processing succeeds and its balance
score exists (at least two clusters, so `k ≥ 2`) and lies below the `99999`
initialization sentinel. -/
theorem spectral_grand_loop_singleton (km km2 : Graph → Nat → List Nat) (G : Graph)
    (k : Nat) (fin : List (List Nat)) (d : ℚ)
    (hfin : spectral_post_process k (spectral_2 km2 G k) = some fin)
    (hbal : balance_score_clusters fin = some d)
    (hd : d < 99999 ^ 2) :
    spectral_grand_loop km km2 G k k = spectral_post_process k (spectral km G k) := by
  have hrange : List.range' k (k + 1 - k) = [k] := by
    have h1 : k + 1 - k = 1 := by omega
    rw [h1, List.range'_one]
  rw [spectral_grand_loop, hrange]
  simp [hfin, hbal, hd, List.findIdx?]

/-- Witness for the C3 theorem at a concrete graph, backends and k = 2. -/
theorem spectral_grand_loop_singleton_witness :
    spectral_grand_loop kmOne kmZero triangle 2 2 =
      spectral_post_process 2 (spectral kmOne triangle 2) :=
  spectral_grand_loop_singleton kmOne kmZero triangle 2 [[1, 3], [2]] (1 / 2)
    (by decide) (by norm_num [balance_score_clusters]) (by norm_num)

/-- Witness for the amended C4 theorem at a concrete graph and backend. -/
theorem spectral_keys_positional_witness :
    (spectral kmZero nodesFromZero 2).map Prod.fst =
        List.range' 1 nodesFromZero.nodes.length ∧
    (spectral_2 kmZero nodesFromZero 2).map Prod.fst =
        List.range' 1 nodesFromZero.nodes.length ∧
    (∀ p ∈ spectral kmZero nodesFromZero 2, p.2 < 2) ∧
    (∀ p ∈ spectral_2 kmZero nodesFromZero 2, p.2 < 2) :=
  spectral_keys_positional kmZero kmZero nodesFromZero 2 (by decide) (by decide)
    (by decide) (by decide)

lemma scanBest_cons {α β : Type} (f : α → ℚ) (g : α → β) (x : α) (l : List α)
    (acc : β × ℚ) :
    scanBest f g (x :: l) acc = scanBest f g l (if acc.2 < f x then (g x, f x) else acc) :=
  rfl

lemma scanBest_all_le {α β : Type} (f : α → ℚ) (g : α → β) :
    ∀ (l : List α) (acc : β × ℚ), (∀ x ∈ l, f x ≤ acc.2) → scanBest f g l acc = acc
  | [], _, _ => rfl
  | x :: l, acc, h => by
    rw [scanBest_cons, if_neg (not_lt.mpr (h x (List.mem_cons_self x l)))]
    exact scanBest_all_le f g l acc (fun y hy => h y (List.mem_cons_of_mem x hy))

lemma le_scanBest_snd {α β : Type} (f : α → ℚ) (g : α → β) :
    ∀ (l : List α) (acc : β × ℚ), acc.2 ≤ (scanBest f g l acc).2
  | [], _ => le_refl _
  | x :: l, acc => by
    rw [scanBest_cons]
    by_cases h : acc.2 < f x
    · rw [if_pos h]
      exact le_trans (le_of_lt h) (le_scanBest_snd f g l (g x, f x))
    · rw [if_neg h]
      exact le_scanBest_snd f g l acc

lemma mem_le_scanBest_snd {α β : Type} (f : α → ℚ) (g : α → β) :
    ∀ (l : List α) (acc : β × ℚ), ∀ y ∈ l, f y ≤ (scanBest f g l acc).2
  | [], _, y, hy => by simp at hy
  | x :: l, acc, y, hy => by
    rw [scanBest_cons]
    rcases List.mem_cons.mp hy with rfl | hmem
    · by_cases h : acc.2 < f y
      · rw [if_pos h]
        exact le_scanBest_snd f g l (g y, f y)
      · rw [if_neg h]
        exact le_trans (not_lt.mp h) (le_scanBest_snd f g l acc)
    · by_cases h : acc.2 < f x
      · rw [if_pos h]
        exact mem_le_scanBest_snd f g l (g x, f x) y hmem
      · rw [if_neg h]
        exact mem_le_scanBest_snd f g l acc y hmem

lemma scanBest_snd_eq_or_mem {α β : Type} (f : α → ℚ) (g : α → β) :
    ∀ (l : List α) (acc : β × ℚ),
      (scanBest f g l acc).2 = acc.2 ∨ ∃ y ∈ l, (scanBest f g l acc).2 = f y
  | [], _ => Or.inl rfl
  | x :: l, acc => by
    rw [scanBest_cons]
    by_cases h : acc.2 < f x
    · rw [if_pos h]
      rcases scanBest_snd_eq_or_mem f g l (g x, f x) with h1 | ⟨y, hy, h2⟩
      · exact Or.inr ⟨x, List.mem_cons_self x l, h1⟩
      · exact Or.inr ⟨y, List.mem_cons_of_mem x hy, h2⟩
    · rw [if_neg h]
      rcases scanBest_snd_eq_or_mem f g l acc with h1 | ⟨y, hy, h2⟩
      · exact Or.inl h1
      · exact Or.inr ⟨y, List.mem_cons_of_mem x hy, h2⟩

lemma scanBest_argmax {α β : Type} (f : α → ℚ) (g : α → β) :
    ∀ (l : List α) (acc : β × ℚ), (∃ y ∈ l, acc.2 < f y) →
      ∃ (idx : Nat) (hidx : idx < l.length),
        scanBest f g l acc = (g (l.get ⟨idx, hidx⟩), f (l.get ⟨idx, hidx⟩)) ∧
        (∀ y ∈ l, f y ≤ f (l.get ⟨idx, hidx⟩)) ∧
        acc.2 < f (l.get ⟨idx, hidx⟩) ∧
        (∀ j (hj : j < l.length), j < idx → f (l.get ⟨j, hj⟩) < f (l.get ⟨idx, hidx⟩))
  | [], _, hex => by
    obtain ⟨y, hy, _⟩ := hex
    simp at hy
  | x :: l, acc, hex => by
    rw [scanBest_cons]
    by_cases hupd : acc.2 < f x
    · rw [if_pos hupd]
      by_cases hex2 : ∃ y ∈ l, f x < f y
      · have hex2' : ∃ y ∈ l, (g x, f x).2 < f y := hex2
        obtain ⟨idx, hidx, heq, hmax, hacc, hstrict⟩ := scanBest_argmax f g l (g x, f x) hex2'
        refine ⟨idx + 1, by simpa using Nat.succ_lt_succ hidx, ?_, ?_, ?_, ?_⟩
        · simpa using heq
        · intro y hy
          rcases List.mem_cons.mp hy with rfl | hmem
          · simpa using le_of_lt hacc
          · simpa using hmax y hmem
        · simpa using lt_trans hupd hacc
        · intro j hj hjlt
          match j with
          | 0 => simpa using hacc
          | j' + 1 =>
            have hj' : j' < l.length := by simpa using hj
            have := hstrict j' hj' (by omega)
            simpa using this
      · push_neg at hex2
        have hall : ∀ y ∈ l, f y ≤ (g x, f x).2 := hex2
        rw [scanBest_all_le f g l (g x, f x) hall]
        refine ⟨0, by simp, by simp, ?_, by simpa using hupd, ?_⟩
        · intro y hy
          rcases List.mem_cons.mp hy with rfl | hmem
          · simp
          · simpa using hex2 y hmem
        · intro j hj hjlt
          omega
    · rw [if_neg hupd]
      have hex2 : ∃ y ∈ l, acc.2 < f y := by
        obtain ⟨y, hy, hval⟩ := hex
        rcases List.mem_cons.mp hy with rfl | hmem
        · exact absurd hval hupd
        · exact ⟨y, hmem, hval⟩
      obtain ⟨idx, hidx, heq, hmax, hacc, hstrict⟩ := scanBest_argmax f g l acc hex2
      refine ⟨idx + 1, by simpa using Nat.succ_lt_succ hidx, by simpa using heq, ?_,
        by simpa using hacc, ?_⟩
      · intro y hy
        rcases List.mem_cons.mp hy with rfl | hmem
        · simpa using le_trans (not_lt.mp hupd) (le_of_lt hacc)
        · simpa using hmax y hmem
      · intro j hj hjlt
        match j with
        | 0 => simpa using lt_of_le_of_lt (not_lt.mp hupd) hacc
        | j' + 1 =>
          have hj' : j' < l.length := by simpa using hj
          have := hstrict j' hj' (by omega)
          simpa using this

lemma mc_train_fold_proj (m : MCModel) (expand : Nat) :
    ∀ (l : List ℚ) (p v : ℚ) (ser : List ℚ),
      ((l.foldl (mcStep m expand) (p, v, ser)).1,
        (l.foldl (mcStep m expand) (p, v, ser)).2.1) =
        scanBest (m.modularity expand) id l (p, v)
  | [], _, _, _ => rfl
  | x :: l, p, v, ser => by
    rw [List.foldl_cons, scanBest_cons]
    by_cases h : v < m.modularity expand x
    · have hstep : mcStep m expand (p, v, ser) x =
          (x, m.modularity expand x, ser ++ [m.modularity expand x]) := if_pos h
      rw [hstep, if_pos h]
      exact mc_train_fold_proj m expand l x (m.modularity expand x)
        (ser ++ [m.modularity expand x])
    · have hstep : mcStep m expand (p, v, ser) x =
          (p, v, ser ++ [m.modularity expand x]) := if_neg h
      rw [hstep, if_neg h]
      exact mc_train_fold_proj m expand l p v (ser ++ [m.modularity expand x])

lemma mc_train_proj (m : MCModel) (expand start stop : Nat) :
    ((mc_train m expand start stop).1, (mc_train m expand start stop).2.1) =
      scanBest (m.modularity expand) id (inflList start stop) (0, 0) :=
  mc_train_fold_proj m expand (inflList start stop) 0 0 []

lemma markov_search_fold_proj (m : MCModel) (i0 i1 : Nat) :
    ∀ (l : List Nat) (e : Nat) (fl v : ℚ),
      (((l.foldl (searchStep m i0 i1) (e, fl, v)).1,
          (l.foldl (searchStep m i0 i1) (e, fl, v)).2.1),
        (l.foldl (searchStep m i0 i1) (e, fl, v)).2.2) =
        scanBest (fun i => (mc_train m i i0 i1).2.1)
          (fun i => (i, (mc_train m i i0 i1).1)) l ((e, fl), v)
  | [], _, _, _ => rfl
  | x :: l, e, fl, v => by
    rw [List.foldl_cons, scanBest_cons]
    by_cases h : v < (mc_train m x i0 i1).2.1
    · have hstep : searchStep m i0 i1 (e, fl, v) x =
          (x, (mc_train m x i0 i1).1, (mc_train m x i0 i1).2.1) := if_pos h
      rw [hstep, if_pos h]
      exact markov_search_fold_proj m i0 i1 l x (mc_train m x i0 i1).1
        (mc_train m x i0 i1).2.1
    · have hstep : searchStep m i0 i1 (e, fl, v) x = (e, fl, v) := if_neg h
      rw [hstep, if_neg h]
      exact markov_search_fold_proj m i0 i1 l e fl v

lemma markov_search_proj (m : MCModel) (es ee i0 i1 : Nat) :
    (((markov_search m es ee i0 i1).1, (markov_search m es ee i0 i1).2.1),
      (markov_search m es ee i0 i1).2.2) =
      scanBest (fun i => (mc_train m i i0 i1).2.1)
        (fun i => (i, (mc_train m i i0 i1).1)) (List.range' es (ee + 1 - es)) ((0, 0), 0) :=
  markov_search_fold_proj m i0 i1 (List.range' es (ee + 1 - es)) 0 0 0

lemma mem_inflList (i0 i1 i : Nat) (h0 : i0 ≤ i) (h1 : i < i1) :
    ((i : ℚ) / 10) ∈ inflList i0 i1 := by
  have hm : i ∈ List.range' i0 (i1 - i0) := List.mem_range'_1.mpr ⟨h0, by omega⟩
  exact List.mem_map.mpr ⟨i, hm, rfl⟩

lemma inflList_mem_shape (i0 i1 : Nat) (q : ℚ) (hq : q ∈ inflList i0 i1) :
    ∃ i : Nat, i0 ≤ i ∧ i < i1 ∧ q = (i : ℚ) / 10 := by
  simp only [inflList, List.mem_map] at hq
  obtain ⟨i, hi, rfl⟩ := hq
  have hb := List.mem_range'_1.mp hi
  exact ⟨i, by omega, by omega, rfl⟩

lemma markov_all_nonpositive (m : MCModel) (es ee i0 i1 : Nat)
    (h : ∀ e i : Nat, es ≤ e → e ≤ ee → i0 ≤ i → i < i1 →
      m.modularity e ((i : ℚ) / 10) ≤ 0) :
    markov_search m es ee i0 i1 = (0, 0, 0) ∧
    markov_grand_loop m es ee i0 i1 = m.clusters 0 0 := by
  have hrow : ∀ e : Nat, es ≤ e → e ≤ ee →
      ((mc_train m e i0 i1).1, (mc_train m e i0 i1).2.1) = ((0 : ℚ), (0 : ℚ)) := by
    intro e he1 he2
    rw [mc_train_proj]
    apply scanBest_all_le
    intro q hq
    obtain ⟨i, hi0, hi1, rfl⟩ := inflList_mem_shape i0 i1 q hq
    exact h e i he1 he2 hi0 hi1
  have houter : (((markov_search m es ee i0 i1).1, (markov_search m es ee i0 i1).2.1),
      (markov_search m es ee i0 i1).2.2) = (((0 : Nat), (0 : ℚ)), (0 : ℚ)) := by
    rw [markov_search_proj]
    apply scanBest_all_le
    intro e he
    have hb := List.mem_range'_1.mp he
    have h2 : (mc_train m e i0 i1).2.1 = 0 :=
      congrArg Prod.snd (hrow e (by omega) (by omega))
    rw [h2]
  have e1 : (markov_search m es ee i0 i1).1 = 0 := congrArg (fun p => p.1.1) houter
  have e2 : (markov_search m es ee i0 i1).2.1 = 0 := congrArg (fun p => p.1.2) houter
  have e3 : (markov_search m es ee i0 i1).2.2 = 0 := congrArg (fun p => p.2) houter
  have hms : markov_search m es ee i0 i1 =
      ((markov_search m es ee i0 i1).1, (markov_search m es ee i0 i1).2.1,
        (markov_search m es ee i0 i1).2.2) := rfl
  constructor
  · rw [hms, e1, e2, e3]
  · rw [markov_grand_loop, e1, e2]

/-- C8: when every trial in the grid has modularity at most 0, the strict
improvement tests `Q > max_mod` and `grand_max_modularity < curr_max_mod` never
fire, so the search state stays at its initialization and `markov_grand_loop`
reports the baseline parameters (expansion 0, inflation 0), returning the
clusterer's output at those parameters rather than raising an error. -/
theorem markov_search_all_nonpositive_baseline (m : MCModel) (es ee i0 i1 : Nat)
    (h : ∀ e i : Nat, es ≤ e → e ≤ ee → i0 ≤ i → i < i1 →
      m.modularity e ((i : ℚ) / 10) ≤ 0) :
    markov_search m es ee i0 i1 = (0, 0, 0) ∧
    markov_grand_loop m es ee i0 i1 = m.clusters 0 0 :=
  markov_all_nonpositive m es ee i0 i1 h

/-- Witness for the C8 theorem at a concrete model whose trials all score -1. -/
theorem markov_search_all_nonpositive_baseline_witness :
    markov_search mAllNeg 2 3 11 13 = (0, 0, 0) ∧
    markov_grand_loop mAllNeg 2 3 11 13 = mAllNeg.clusters 0 0 :=
  markov_search_all_nonpositive_baseline mAllNeg 2 3 11 13
    (fun e i _ _ _ _ => by norm_num [mAllNeg])

/-- C2 as stated is false: when every trial's modularity is negative, the
selected pair is the untried baseline (0, 0), not the trial with maximum
modularity.  Here the single trial is (expansion 2, inflation 1.1) with
modularity -1, yet the returned cluster set is the clusterer's output at
(0, 0), which differs from its output at the maximal (indeed only) trial. -/
theorem markov_grand_loop_skips_negative_max :
    markov_search mAllNeg 2 2 11 12 = (0, 0, 0) ∧
    markov_grand_loop mAllNeg 2 2 11 12 = [[0]] ∧
    mAllNeg.clusters 2 ((11 : ℚ) / 10) = [[2]] ∧
    ([[0]] : List (List Nat)) ≠ [[2]] := by
  refine ⟨?_, ?_, by norm_num [mAllNeg], by decide⟩
  · exact (markov_all_nonpositive mAllNeg 2 2 11 12
      (fun e i _ _ _ _ => by norm_num [mAllNeg])).1
  · exact (markov_all_nonpositive mAllNeg 2 2 11 12
      (fun e i _ _ _ _ => by norm_num [mAllNeg])).2

/-- C2 amended: provided at least one trial in the grid has strictly positive
modularity, `markov_grand_loop` evaluates the full grid (expansion in
[e_min, e_max], inflation index in [i_min, i_max), inflation = index/10),
selects the pair with maximum modularity, breaking ties in favour of the first
pair encountered in the iteration order expansion ascending then inflation
ascending (every lexicographically earlier trial scores strictly less), and
returns the cluster set from re-running the clusterer once at the winning
parameters.  (When every trial scores at most 0, the baseline (0, 0) is
reported instead — see the C8 theorem.) -/
theorem markov_grand_loop_first_max (m : MCModel) (es ee i0 i1 : Nat)
    (hpos : ∃ e i : Nat, es ≤ e ∧ e ≤ ee ∧ i0 ≤ i ∧ i < i1 ∧
      0 < m.modularity e ((i : ℚ) / 10)) :
    ∃ eW iW : Nat, es ≤ eW ∧ eW ≤ ee ∧ i0 ≤ iW ∧ iW < i1 ∧
      markov_search m es ee i0 i1 =
        (eW, (iW : ℚ) / 10, m.modularity eW ((iW : ℚ) / 10)) ∧
      markov_grand_loop m es ee i0 i1 = m.clusters eW ((iW : ℚ) / 10) ∧
      (∀ e i : Nat, es ≤ e → e ≤ ee → i0 ≤ i → i < i1 →
        m.modularity e ((i : ℚ) / 10) ≤ m.modularity eW ((iW : ℚ) / 10)) ∧
      (∀ e i : Nat, es ≤ e → e ≤ ee → i0 ≤ i → i < i1 →
        (e < eW ∨ (e = eW ∧ i < iW)) →
        m.modularity e ((i : ℚ) / 10) < m.modularity eW ((iW : ℚ) / 10)) := by
  obtain ⟨e0, j0, he0s, he0e, hj0s, hj0e, hmod0⟩ := hpos
  have hrow1 : ∀ e : Nat, (mc_train m e i0 i1).1 =
      (scanBest (m.modularity e) id (inflList i0 i1) (0, 0)).1 :=
    fun e => congrArg Prod.fst (mc_train_proj m e i0 i1)
  have hrow2 : ∀ e : Nat, (mc_train m e i0 i1).2.1 =
      (scanBest (m.modularity e) id (inflList i0 i1) (0, 0)).2 :=
    fun e => congrArg Prod.snd (mc_train_proj m e i0 i1)
  have hFe0 : ((0 : Nat × ℚ), (0 : ℚ)).2 < (mc_train m e0 i0 i1).2.1 := by
    rw [hrow2]
    exact lt_of_lt_of_le hmod0
      (mem_le_scanBest_snd (m.modularity e0) id (inflList i0 i1) (0, 0)
        ((j0 : ℚ) / 10) (mem_inflList i0 i1 j0 hj0s hj0e))
  have he0L : e0 ∈ List.range' es (ee + 1 - es) := List.mem_range'_1.mpr ⟨he0s, by omega⟩
  obtain ⟨idx, hidx, heq, hmax, hacc, hstrict⟩ :=
    scanBest_argmax (fun i => (mc_train m i i0 i1).2.1)
      (fun i => (i, (mc_train m i i0 i1).1))
      (List.range' es (ee + 1 - es)) ((0, 0), 0) ⟨e0, he0L, hFe0⟩
  have hgetW : (List.range' es (ee + 1 - es)).get ⟨idx, hidx⟩ = es + idx := by
    rw [List.get_eq_getElem, List.getElem_range']
    show es + 1 * idx = es + idx
    omega
  rw [hgetW] at heq hmax hacc hstrict
  have hlenL : (List.range' es (ee + 1 - es)).length = ee + 1 - es := by simp
  have heWe : es + idx ≤ ee := by
    rw [hlenL] at hidx
    omega
  have hFW : (0 : ℚ) < (mc_train m (es + idx) i0 i1).2.1 := hacc
  rcases scanBest_snd_eq_or_mem (m.modularity (es + idx)) id (inflList i0 i1) (0, 0) with
    hc | ⟨q, hqmem, hqeq⟩
  · exfalso
    rw [hrow2 (es + idx), hc] at hFW
    exact lt_irrefl 0 hFW
  · have hqpos : ((0 : ℚ), (0 : ℚ)).2 < m.modularity (es + idx) q := by
      rw [← hqeq, ← hrow2 (es + idx)]
      exact hFW
    obtain ⟨jdx, hjdx, heqI, hmaxI, haccI, hstrictI⟩ :=
      scanBest_argmax (m.modularity (es + idx)) id (inflList i0 i1) (0, 0) ⟨q, hqmem, hqpos⟩
    have hlenI : (inflList i0 i1).length = i1 - i0 := by simp [inflList]
    have hgetI : (inflList i0 i1).get ⟨jdx, hjdx⟩ = (((i0 + jdx : Nat) : ℚ) / 10) := by
      rw [List.get_eq_getElem]
      simp only [inflList, List.getElem_map, List.getElem_range']
      show (((i0 + 1 * jdx : Nat) : ℚ) / 10) = (((i0 + jdx : Nat) : ℚ) / 10)
      have harg : i0 + 1 * jdx = i0 + jdx := by omega
      rw [harg]
    rw [hgetI] at heqI hmaxI haccI hstrictI
    have hiWlt : i0 + jdx < i1 := by
      rw [hlenI] at hjdx
      omega
    have htr1 : (mc_train m (es + idx) i0 i1).1 = (((i0 + jdx : Nat) : ℚ) / 10) := by
      rw [hrow1 (es + idx), heqI]
      simp
    have htr2 : (mc_train m (es + idx) i0 i1).2.1 =
        m.modularity (es + idx) (((i0 + jdx : Nat) : ℚ) / 10) := by
      rw [hrow2 (es + idx), heqI]
    have hms := markov_search_proj m es ee i0 i1
    rw [heq] at hms
    have hms1 : (markov_search m es ee i0 i1).1 = es + idx :=
      congrArg (fun p => p.1.1) hms
    have hms2 : (markov_search m es ee i0 i1).2.1 = (mc_train m (es + idx) i0 i1).1 :=
      congrArg (fun p => p.1.2) hms
    have hms3 : (markov_search m es ee i0 i1).2.2 = (mc_train m (es + idx) i0 i1).2.1 :=
      congrArg (fun p => p.2) hms
    refine ⟨es + idx, i0 + jdx, Nat.le_add_right es idx, heWe, Nat.le_add_right i0 jdx,
      hiWlt, ?_, ?_, ?_, ?_⟩
    · have hmseta : markov_search m es ee i0 i1 =
          ((markov_search m es ee i0 i1).1, (markov_search m es ee i0 i1).2.1,
            (markov_search m es ee i0 i1).2.2) := rfl
      rw [hmseta, hms1, hms2, hms3, htr1, htr2]
    · rw [markov_grand_loop, hms1, hms2, htr1]
    · intro e i hes hee his hie
      have hFe : m.modularity e ((i : ℚ) / 10) ≤ (mc_train m e i0 i1).2.1 := by
        rw [hrow2 e]
        exact mem_le_scanBest_snd (m.modularity e) id (inflList i0 i1) (0, 0)
          ((i : ℚ) / 10) (mem_inflList i0 i1 i his hie)
      have heL : e ∈ List.range' es (ee + 1 - es) := List.mem_range'_1.mpr ⟨hes, by omega⟩
      have hFee := hmax e heL
      rw [htr2] at hFee
      exact le_trans hFe hFee
    · intro e i hes hee his hie hlex
      rcases hlex with hlt | ⟨rfl, hilt⟩
      · have hj : e - es < (List.range' es (ee + 1 - es)).length := by
          rw [hlenL]
          omega
        have hgetj : (List.range' es (ee + 1 - es)).get ⟨e - es, hj⟩ = e := by
          rw [List.get_eq_getElem, List.getElem_range']
          show es + 1 * (e - es) = e
          omega
        have hlt2 : e - es < idx := by omega
        have hst := hstrict (e - es) hj hlt2
        rw [hgetj] at hst
        have hFe : m.modularity e ((i : ℚ) / 10) ≤ (mc_train m e i0 i1).2.1 := by
          rw [hrow2 e]
          exact mem_le_scanBest_snd (m.modularity e) id (inflList i0 i1) (0, 0)
            ((i : ℚ) / 10) (mem_inflList i0 i1 i his hie)
        rw [htr2] at hst
        exact lt_of_le_of_lt hFe hst
      · have hj : i - i0 < (inflList i0 i1).length := by
          rw [hlenI]
          omega
        have hgetj : (inflList i0 i1).get ⟨i - i0, hj⟩ = ((i : ℚ) / 10) := by
          rw [List.get_eq_getElem]
          simp only [inflList, List.getElem_map, List.getElem_range']
          show (((i0 + 1 * (i - i0) : Nat) : ℚ) / 10) = ((i : ℚ) / 10)
          have harg : i0 + 1 * (i - i0) = i := by omega
          rw [harg]
        have hlt2 : i - i0 < jdx := by omega
        have hst := hstrictI (i - i0) hj hlt2
        rw [hgetj] at hst
        exact hst

/-- Witness for the amended C2 theorem at a concrete model with a positive
trial. -/
theorem markov_grand_loop_first_max_witness :
    ∃ eW iW : Nat, 2 ≤ eW ∧ eW ≤ 3 ∧ 11 ≤ iW ∧ iW < 13 ∧
      markov_search mOnePeak 2 3 11 13 =
        (eW, (iW : ℚ) / 10, mOnePeak.modularity eW ((iW : ℚ) / 10)) ∧
      markov_grand_loop mOnePeak 2 3 11 13 = mOnePeak.clusters eW ((iW : ℚ) / 10) ∧
      (∀ e i : Nat, 2 ≤ e → e ≤ 3 → 11 ≤ i → i < 13 →
        mOnePeak.modularity e ((i : ℚ) / 10) ≤ mOnePeak.modularity eW ((iW : ℚ) / 10)) ∧
      (∀ e i : Nat, 2 ≤ e → e ≤ 3 → 11 ≤ i → i < 13 →
        (e < eW ∨ (e = eW ∧ i < iW)) →
        mOnePeak.modularity e ((i : ℚ) / 10) < mOnePeak.modularity eW ((iW : ℚ) / 10)) :=
  markov_grand_loop_first_max mOnePeak 2 3 11 13
    ⟨2, 12, by norm_num, by norm_num, by norm_num, by norm_num, by norm_num [mOnePeak]⟩

lemma head_le_getLast_of_sorted (q : Nat × ℚ) (qs : List (Nat × ℚ))
    (hs : List.Sorted (fun a b => a.2 ≤ b.2) (q :: qs)) (mm : Nat × ℚ)
    (hmm : (q :: qs).getLast? = some mm) : q.2 ≤ mm.2 := by
  have hmem : mm ∈ q :: qs := List.mem_of_mem_getLast? hmm
  rcases List.mem_cons.mp hmem with rfl | hmem2
  · exact le_refl _
  · exact (List.sorted_cons.mp hs).1 mm hmem2

lemma getLast?_orderedInsert (x : Nat × ℚ) :
    ∀ (s : List (Nat × ℚ)), List.Sorted (fun a b => a.2 ≤ b.2) s →
      ∀ mm : Nat × ℚ, s.getLast? = some mm →
      (List.orderedInsert (fun a b => a.2 ≤ b.2) x s).getLast? =
        some (if mm.2 < x.2 then x else mm)
  | [], _, mm, hmm => by simp at hmm
  | q :: qs, hs, mm, hmm => by
    by_cases hxq : x.2 ≤ q.2
    · simp only [List.orderedInsert]
      rw [if_pos hxq, List.getLast?_cons_cons, hmm]
      have hqm : q.2 ≤ mm.2 := head_le_getLast_of_sorted q qs hs mm hmm
      rw [if_neg (not_lt.mpr (le_trans hxq hqm))]
    · simp only [List.orderedInsert]
      rw [if_neg hxq]
      cases qs with
      | nil =>
        have hmmq : mm = q := by
          have := hmm
          simp only [List.getLast?_singleton, Option.some.injEq] at this
          exact this.symm
        simp only [List.orderedInsert]
        rw [List.getLast?_cons_cons, List.getLast?_singleton, hmmq,
          if_pos (not_le.mp hxq)]
      | cons q' qs' =>
        have hmm' : (q' :: qs').getLast? = some mm := by
          rw [← List.getLast?_cons_cons (a := q)]
          exact hmm
        have htail : List.Sorted (fun a b => a.2 ≤ b.2) (q' :: qs') :=
          (List.sorted_cons.mp hs).2
        have hrec := getLast?_orderedInsert x (q' :: qs') htail mm hmm'
        rcases hsh : List.orderedInsert (fun a b => a.2 ≤ b.2) x (q' :: qs') with
          _ | ⟨y, ys⟩
        · exfalso
          have hlen := List.orderedInsert_length (fun a b : Nat × ℚ => a.2 ≤ b.2)
            (q' :: qs') x
          rw [hsh] at hlen
          simp at hlen
        · rw [hsh] at hrec
          rw [hsh, List.getLast?_cons_cons]
          exact hrec

lemma sorted_by_val_last :
    ∀ (l : List (Nat × ℚ)), l ≠ [] →
      ∃ (idx : Nat) (hidx : idx < l.length),
        (sorted_by_val l).getLast? = some (l.get ⟨idx, hidx⟩) ∧
        (∀ j (hj : j < l.length), (l.get ⟨j, hj⟩).2 ≤ (l.get ⟨idx, hidx⟩).2) ∧
        (∀ j (hj : j < l.length), idx < j → (l.get ⟨j, hj⟩).2 < (l.get ⟨idx, hidx⟩).2)
  | [], h => absurd rfl h
  | [x], _ => by
    refine ⟨0, by simp, by simp [sorted_by_val, List.insertionSort, List.orderedInsert], ?_, ?_⟩
    · intro j hj
      have hj0 : j = 0 := by simpa using hj
      subst hj0
      exact le_refl _
    · intro j hj hlt
      have hj0 : j = 0 := by simpa using hj
      omega
  | x :: y :: rest, _ => by
    obtain ⟨idx', hidx', hlast', hmax', hstrict'⟩ := sorted_by_val_last (y :: rest) (by simp)
    have hsorted : List.Sorted (fun a b => a.2 ≤ b.2) (sorted_by_val (y :: rest)) :=
      List.sorted_insertionSort _ _
    have hlast2 := getLast?_orderedInsert x (sorted_by_val (y :: rest)) hsorted _ hlast'
    have hstep : (sorted_by_val (x :: y :: rest)).getLast? =
        (List.orderedInsert (fun a b => a.2 ≤ b.2) x (sorted_by_val (y :: rest))).getLast? :=
      rfl
    by_cases hcmp : ((y :: rest).get ⟨idx', hidx'⟩).2 < x.2
    · refine ⟨0, by simp, ?_, ?_, ?_⟩
      · rw [hstep, hlast2, if_pos hcmp]
        rfl
      · intro j hj
        match j, hj with
        | 0, _ => exact le_refl _
        | j' + 1, hj =>
          exact le_of_lt (lt_of_le_of_lt (hmax' j' (by simpa using hj)) hcmp)
      · intro j hj hlt
        match j, hj, hlt with
        | 0, _, hlt => exact absurd hlt (lt_irrefl 0)
        | j' + 1, hj, _ =>
          exact lt_of_le_of_lt (hmax' j' (by simpa using hj)) hcmp
    · refine ⟨idx' + 1, by simpa using Nat.succ_lt_succ hidx', ?_, ?_, ?_⟩
      · rw [hstep, hlast2, if_neg hcmp]
        rfl
      · intro j hj
        match j, hj with
        | 0, _ => exact not_lt.mp hcmp
        | j' + 1, hj => exact hmax' j' (by simpa using hj)
      · intro j hj hlt
        match j, hj, hlt with
        | 0, _, hlt => exact absurd hlt (by omega)
        | j' + 1, hj, hlt => exact hstrict' j' (by simpa using hj) (by omega)

lemma centrality_select_spec (scores : List (Nat × ℚ)) (h : scores ≠ []) :
    IsLastMaxSelection scores (centrality_select scores) := by
  obtain ⟨idx, hidx, hlast, hmax, hstrict⟩ := sorted_by_val_last scores h
  refine ⟨idx, hidx, ?_, hmax, hstrict⟩
  rw [centrality_select, List.head?_reverse, hlast]
  rfl

/-- C10: in every centrality mode, when several entries share the maximum
score the ranker selects the node of the entry that appears last in the
iteration order of the underlying score mapping (stable ascending sort
followed by reversal keeps later equals first), so for a nonempty score
mapping the selection attains the maximum and every strictly later entry
scores strictly less; the selection is a function of the score mapping, hence
of the community, alone.  Stated for the degree and closeness score mappings of
the source and for an arbitrary eigenvector score mapping `eigc`. -/
theorem centrality_modes_select_last_max (G : Graph) (eigc : Graph → List (Nat × ℚ)) :
    (degree_scores G ≠ [] → IsLastMaxSelection (degree_scores G) (degree_centrality G)) ∧
    (closeness_scores G ≠ [] →
      IsLastMaxSelection (closeness_scores G) (close_centrality G)) ∧
    (eigc G ≠ [] → IsLastMaxSelection (eigc G) (eigencentrality eigc G)) :=
  ⟨fun h => centrality_select_spec (degree_scores G) h,
   fun h => centrality_select_spec (closeness_scores G) h,
   fun h => centrality_select_spec (eigc G) h⟩

/-- Witness for the C10 theorem on the triangle: the degree mode and a
two-entry tied eigenvector score mapping. -/
theorem centrality_modes_select_last_max_witness :
    IsLastMaxSelection (degree_scores triangle) (degree_centrality triangle) ∧
    IsLastMaxSelection [(4, 1), (5, 1)]
      (eigencentrality (fun _ => [(4, 1), (5, 1)]) triangle) :=
  ⟨(centrality_modes_select_last_max triangle (fun _ => [(4, 1), (5, 1)])).1 (by decide),
   (centrality_modes_select_last_max triangle (fun _ => [(4, 1), (5, 1)])).2.2 (by decide)⟩
